import Mathlib

/-!
Verification of the proprietary-file deduplicator (proprietary-deduper.py).

The program is embedded shallowly: a file's text is a `List Char`; a line is a
`List Char` without its terminator handled explicitly.  Python's `str.rstrip` /
`str.strip` are modelled with `Char.isWhitespace`, `line.split('#')[0]` with
`beforeHash`, the substring test `"extracted from" in line` with `hasSub`, and
`f.readlines()` with `readlines` (segments keep their trailing newline, a final
unterminated segment is kept only when non-empty).  The two whole-file
operations of `deduplicate` are modelled over a small file-system map.
-/

namespace Dedup

abbrev Line := List Char

/-- Python `str.rstrip()` on a line: drop the maximal whitespace suffix. -/
def rstrip (l : Line) : Line := (l.reverse.dropWhile Char.isWhitespace).reverse

/-- Python `str.lstrip()`: drop the maximal whitespace prefix. -/
def lstrip (l : Line) : Line := l.dropWhile Char.isWhitespace

/-- Python `str.strip()`: drop whitespace at both ends. -/
def strip (l : Line) : Line := rstrip (lstrip l)

/-- `line.split('#')[0]` (equivalently `line.split('#', 1)[0]`): the text
before the first `'#'`, the whole line when there is none. -/
def beforeHash : Line → Line
  | [] => []
  | c :: cs => if c = '#' then [] else c :: beforeHash cs

/-- The Entry of a content line: `line.split('#')[0].strip()`. -/
def entryOf (l : Line) : Line := strip (beforeHash l)

/-- `line.startswith('#')`. -/
def startsHash : Line → Bool
  | [] => false
  | c :: _ => c = '#'

/-- Boolean list-prefix test (for the substring test below). -/
def isPrefL : Line → Line → Bool
  | [], _ => true
  | _ :: _, [] => false
  | a :: as, b :: bs => a = b && isPrefL as bs

/-- Python's substring containment `pat in l`. -/
def hasSub (pat : Line) : Line → Bool
  | [] => isPrefL pat []
  | c :: rest => isPrefL pat (c :: rest) || hasSub pat rest

/-- The provenance marker substring `"extracted from"`. -/
def efPat : Line := "extracted from".toList

/-- `"extracted from" in line`. -/
def hasEF (l : Line) : Bool := hasSub efPat l

/-- Python `f.readlines()` on raw text: split after each newline, keeping the
newline; a final segment without a newline is produced only when non-empty. -/
def readlinesAux : Line → List Char → List Line
  | cur, [] => if cur.isEmpty then [] else [cur.reverse]
  | cur, c :: cs =>
    if c = '\n' then (cur.reverse ++ ['\n']) :: readlinesAux [] cs
    else readlinesAux (c :: cur) cs

def readlines (s : List Char) : List Line := readlinesAux [] s

/-- The `Section` dataclass: a header line and its ordered content lines. -/
structure Section where
  header : Line
  content : List Line
deriving DecidableEq, Repr

/-- One pass of the parsing loop of `parse_file`, carried as explicit state:
the open section (if any) and the finished sections so far. -/
def pushCur : Option Section → List Section → List Section
  | none, acc => acc
  | some s, acc => acc ++ [s]

/-- The body of the parsing loop on one raw line: rstrip it; a line starting
with `'#'` closes the open section and opens a new one; otherwise a non-blank
line is appended to the open section's content; blank lines and lines with no
open section are discarded. -/
def scanStep (cur : Option Section) (acc : List Section) (l : Line) :
    Option Section × List Section :=
  let line := rstrip l
  if startsHash line then
    (some ⟨line, []⟩, pushCur cur acc)
  else
    match cur with
    | some s =>
      if (strip line).isEmpty then (some s, acc)
      else (some ⟨s.header, s.content ++ [line]⟩, acc)
    | none => (none, acc)

def scan : Option Section → List Section → List Line → Option Section × List Section
  | cur, acc, [] => (cur, acc)
  | cur, acc, l :: rest => scan (scanStep cur acc l).1 (scanStep cur acc l).2 rest

/-- End-of-input step of `parse_file`: append the open section when
`current_section and (current_section.content or current_section.header)`. -/
def finalize : Option Section → List Section → List Section
  | none, acc => acc
  | some s, acc => if s.content.isEmpty && s.header.isEmpty then acc else acc ++ [s]

def parseLines (lines : List Line) : List Section :=
  let p := scan none [] lines
  finalize p.1 p.2

/-- The provenance-capture step of `parse_file`: when the first raw line
contains `"extracted from"` it becomes the new `source_line` and is dropped
from the line stream; otherwise the incoming `source_line` is kept. -/
def provSplit (source_line : Option Line) (lines : List Line) :
    Option Line × List Line :=
  match lines with
  | [] => (source_line, [])
  | l0 :: rest => if hasEF l0 then (some l0, rest) else (source_line, l0 :: rest)

/-- `parse_file`: provenance capture followed by the section-scanning loop.
The `source_line` argument threads the instance attribute `self.source_line`. -/
def parse_file (source_line : Option Line) (lines : List Line) :
    Option Line × List Section :=
  let p := provSplit source_line lines
  (p.1, parseLines p.2)

/-- `set.add`, on the duplicate-free list modelling `self.common_entries`. -/
def addEntry (s : List Line) (e : Line) : List Line :=
  if e ∈ s then s else s ++ [e]

/-- `load_common_entries` over already-parsed sections: every non-empty Entry
of every content line of every section joins the set. -/
def load_common_entries (secs : List Section) : List Line :=
  secs.foldl
    (fun s sec =>
      sec.content.foldl
        (fun s l =>
          let entry := entryOf l
          if entry.isEmpty then s else addEntry s entry)
        s)
    []

/-- The per-section filtering loop of `process_device_file`: returns the kept
lines (in order) and the number of removed lines. -/
def filterContent (common : List Line) : List Line → List Line × Nat
  | [] => ([], 0)
  | l :: rest =>
    let r := filterContent common rest
    if entryOf l ∈ common then (r.1, r.2 + 1) else (l :: r.1, r.2)

/-- The section loop of `process_device_file`, faithful to the buffer
mutation: the header is appended first and popped again (`output_lines.pop()`)
when no content survives. -/
def processLoop (common : List Line) :
    List Section → List Line → Nat → List Line × Nat
  | [], out, removed => (out, removed)
  | sec :: rest, out, removed =>
    if sec.content.isEmpty then processLoop common rest out removed
    else
      let out1 := out ++ [sec.header]
      let f := filterContent common sec.content
      let out2 := if f.1.isEmpty then out1.dropLast else out1 ++ f.1 ++ [[]]
      processLoop common rest out2 (removed + f.2)

/-- `while output_lines and not output_lines[-1]: output_lines.pop()`. -/
def stripTrailing (out : List Line) : List Line :=
  (out.reverse.dropWhile List.isEmpty).reverse

/-- The initial output buffer: the rstripped `source_line` and one blank line,
when `self.source_line` is truthy. -/
def provPrefix : Option Line → List Line
  | none => []
  | some sl => if sl.isEmpty then [] else [rstrip sl, []]

/-- `process_device_file` after parsing: build the buffer, filter every
non-empty section, strip trailing blank lines; also the total removal count. -/
def process_device_file (source_line : Option Line) (common : List Line)
    (secs : List Section) : List Line × Nat :=
  let p := processLoop common secs (provPrefix source_line) 0
  (stripTrailing p.1, p.2)

/-- `'\n'.join(output_lines) + '\n'`. -/
def joinLines : List Line → Line
  | [] => ['\n']
  | [l] => l ++ ['\n']
  | l :: rest => l ++ '\n' :: joinLines rest

/-- The whole in-memory pipeline of `deduplicate` on the two file texts:
parse the common file, build the entry set, parse the device file (the
provenance line threads through `self.source_line`), filter, and render.
Returns the rewritten text and the removal count. -/
def run (commonText deviceText : List Char) : Line × Nat :=
  let p1 := parse_file none (readlines commonText)
  let common := load_common_entries p1.2
  let p2 := parse_file p1.1 (readlines deviceText)
  let r := process_device_file p2.1 common p2.2
  (joinLines r.1, r.2)

/-- The `self.source_line` value in effect when the device file is rendered. -/
def slOf (commonText deviceText : List Char) : Option Line :=
  (parse_file (parse_file none (readlines commonText)).1
    (readlines deviceText)).1

/-- The common-entry set of a run. -/
def commonOf (commonText : List Char) : List Line :=
  load_common_entries (parse_file none (readlines commonText)).2

/-- The device file's parsed sections within a run. -/
def secsOf (commonText deviceText : List Char) : List Section :=
  (parse_file (parse_file none (readlines commonText)).1
    (readlines deviceText)).2

/-- The final output-line buffer of a run (before joining with newlines). -/
def runOutputLines (commonText deviceText : List Char) : List Line :=
  (process_device_file (slOf commonText deviceText) (commonOf commonText)
    (secsOf commonText deviceText)).1

/-- The removal count of a run. -/
def removedOf (commonText deviceText : List Char) : Nat :=
  (process_device_file (slOf commonText deviceText) (commonOf commonText)
    (secsOf commonText deviceText)).2

/-- What one section contributes to the output buffer. -/
def secOut (common : List Line) (sec : Section) : List Line :=
  if sec.content.isEmpty then []
  else
    let f := (filterContent common sec.content).1
    if f.isEmpty then [] else sec.header :: f ++ [[]]

/-- How many removals one section contributes. -/
def secRemoved (common : List Line) (sec : Section) : Nat :=
  (filterContent common sec.content).2

def sectionsOut (common : List Line) : List Section → List Line
  | [] => []
  | s :: rest => secOut common s ++ sectionsOut common rest

def totalRemoved (common : List Line) : List Section → Nat
  | [] => 0
  | s :: rest => secRemoved common s + totalRemoved common rest

/-- One block of the output buffer: what a surviving section occupies. -/
def emitSecs : List Section → List Line
  | [] => []
  | s :: rest => (s.header :: s.content ++ [[]]) ++ emitSecs rest

/-- The sections that survive filtering, with their surviving content. -/
def survivors (common : List Line) : List Section → List Section
  | [] => []
  | s :: rest =>
    let f := (filterContent common s.content).1
    (if f.isEmpty then [] else [⟨s.header, f⟩]) ++ survivors common rest

/-!  A file-system model for the whole-file side effects of `deduplicate`.
A path maps to nothing (`Path.exists()` false), a regular file with contents
(`Path.is_file()` true), or a directory. -/

inductive FNode where
  | file (content : List Char)
  | dir
deriving DecidableEq, Repr

def FSys := String → Option FNode

/-- `Path.exists()`. -/
def fsExists (fs : FSys) (p : String) : Bool := (fs p).isSome

/-- `Path.is_file()`. -/
def is_file (fs : FSys) (p : String) : Bool :=
  match fs p with
  | some (FNode.file _) => true
  | _ => false

/-- `validate_files`: both paths must exist and be regular files, else the
process exits with status 1 (modelled as the Boolean outcome). -/
def validate_files (fs : FSys) (common_file device_file : String) : Bool :=
  [common_file, device_file].all (fun p => fsExists fs p && is_file fs p)

/-- `open(p).read()`-equivalent on the model (only called on validated files). -/
def readFile (fs : FSys) (p : String) : List Char :=
  match fs p with
  | some (FNode.file s) => s
  | _ => []

/-- `deduplicate`: validation, the in-memory pipeline, then either no write
(dry run) or overwriting the device file.  `none` models the `sys.exit(1)`
paths (non-zero exit status); `some (fs, n)` models a completed run with exit
status 0, the resulting file system and the removal count. -/
def deduplicate (fs : FSys) (common_file device_file : String)
    (dry_run : Bool) : Option (FSys × Nat) :=
  if validate_files fs common_file device_file then
    let r := run (readFile fs common_file) (readFile fs device_file)
    if dry_run then some (fs, r.2)
    else some (fun p => if p = device_file then some (FNode.file r.1) else fs p, r.2)
  else none

/-- Two file-system nodes of the same kind (content not compared): what
validation may inspect without reading any file content. -/
def sameKind : Option FNode → Option FNode → Prop
  | none, none => True
  | some (FNode.file _), some (FNode.file _) => True
  | some FNode.dir, some FNode.dir => True
  | _, _ => False

/-! Invariants of lines produced by the parser, used to relate a run's output
to its re-parse.  A parsed header starts with `'#'`; a parsed content line
does not, is non-blank, and both are rstrip-fixed; lines obtained from
`readlines` are newline-free after rstripping. -/

def goodHeaderLine (l : Line) : Prop :=
  startsHash l = true ∧ rstrip l = l ∧ '\n' ∉ l

def goodContentLine (l : Line) : Prop :=
  startsHash l = false ∧ rstrip l = l ∧ (strip l).isEmpty = false ∧ '\n' ∉ l

def goodSec (s : Section) : Prop :=
  goodHeaderLine s.header ∧ ∀ l ∈ s.content, goodContentLine l

/-- A two-file test file system: a common list at `"c"`, a device list at
`"d"`. -/
def fsW : FSys := fun p =>
  if p = "c" then some (FNode.file ("#h\nlib/a.so".toList))
  else if p = "d" then some (FNode.file ("#h\nlib/a.so\nlib/b.so".toList))
  else none

/-- The file system left by a non-dry run of `deduplicate` on `fsW`. -/
def dedupResW : FSys := fun p =>
  if p = "d" then some (FNode.file (run (readFile fsW "c") (readFile fsW "d")).1)
  else fsW p

/-! ### Basic lemmas about the line primitives -/

theorem rstrip_idem (l : Line) : rstrip (rstrip l) = rstrip l := by
  simp [rstrip, List.dropWhile_idempotent]

theorem rstrip_append_ws (l : Line) {c : Char} (h : c.isWhitespace) :
    rstrip (l ++ [c]) = rstrip l := by
  simp [rstrip, List.dropWhile_cons_of_pos, h]

theorem rstrip_append_nl (l : Line) : rstrip (l ++ ['\n']) = rstrip l :=
  rstrip_append_ws l (by decide)

theorem mem_of_mem_rstrip {a : Char} {l : Line} (h : a ∈ rstrip l) : a ∈ l := by
  have h1 : a ∈ l.reverse.dropWhile Char.isWhitespace := by
    simpa [rstrip] using h
  have h2 := (List.dropWhile_sublist (l := l.reverse)
    (p := Char.isWhitespace)).subset h1
  simpa using h2

theorem rstrip_ne_nil {l : Line} {c : Char} (hc : c ∈ l)
    (hw : ¬ c.isWhitespace) : rstrip l ≠ [] := by
  intro h
  have h1 : l.reverse.dropWhile Char.isWhitespace = [] := by
    have := congrArg List.reverse h
    simpa [rstrip] using this
  have h2 := (List.dropWhile_eq_nil_iff).1 h1 c (by simpa using hc)
  exact hw h2

theorem isPrefL_iff (pat l : Line) :
    isPrefL pat l = true ↔ ∃ v, l = pat ++ v := by
  induction pat generalizing l with
  | nil => simp [isPrefL]
  | cons a as ih =>
    cases l with
    | nil => simp [isPrefL]
    | cons b bs =>
      simp only [isPrefL, Bool.and_eq_true, decide_eq_true_eq, ih]
      constructor
      · rintro ⟨rfl, v, rfl⟩
        exact ⟨v, rfl⟩
      · rintro ⟨v, hv⟩
        cases hv
        exact ⟨rfl, v, rfl⟩

theorem hasSub_iff (pat l : Line) :
    hasSub pat l = true ↔ ∃ u v, l = u ++ pat ++ v := by
  induction l with
  | nil =>
    simp only [hasSub, isPrefL_iff]
    constructor
    · rintro ⟨v, hv⟩
      exact ⟨[], v, by simpa using hv⟩
    · rintro ⟨u, v, huv⟩
      have hu : u = [] := by
        cases u with
        | nil => rfl
        | cons x xs => simp at huv
      subst hu
      exact ⟨v, by simpa using huv⟩
  | cons c rest ih =>
    simp only [hasSub, Bool.or_eq_true, isPrefL_iff, ih]
    constructor
    · rintro (⟨v, hv⟩ | ⟨u, v, huv⟩)
      · exact ⟨[], v, by simpa using hv⟩
      · exact ⟨c :: u, v, by simp [huv]⟩
    · rintro ⟨u, v, huv⟩
      cases u with
      | nil => exact Or.inl ⟨v, by simpa using huv⟩
      | cons x xs =>
        simp only [List.cons_append, List.cons.injEq] at huv
        exact Or.inr ⟨xs, v, by simp [huv.2]⟩

theorem hasSub_append_right {pat l : Line} (v : Line)
    (h : hasSub pat l = true) : hasSub pat (l ++ v) = true := by
  rcases (hasSub_iff pat l).1 h with ⟨u, w, rfl⟩
  exact (hasSub_iff pat _).2 ⟨u, w ++ v, by simp⟩

theorem hasEF_append_nl {l : Line} (h : hasEF l = true) :
    hasEF (l ++ ['\n']) = true :=
  hasSub_append_right ['\n'] h

theorem hasEF_ne_nil {l : Line} (h : hasEF l = true) : l ≠ [] := by
  rintro rfl
  simp [hasEF, hasSub, isPrefL, efPat] at h

theorem hasEF_mem_nonws {l : Line} (h : hasEF l = true) :
    ∃ c ∈ l, ¬ c.isWhitespace := by
  rcases (hasSub_iff efPat l).1 h with ⟨u, v, rfl⟩
  refine ⟨'m', ?_, by decide⟩
  have : 'm' ∈ efPat := by decide
  simp [this]

theorem hasEF_rstrip_ne_nil {l : Line} (h : hasEF l = true) :
    rstrip l ≠ [] := by
  rcases hasEF_mem_nonws h with ⟨c, hc, hw⟩
  exact rstrip_ne_nil hc hw

theorem hasEF_rstrip {l : Line} (h : hasEF l = true) :
    hasEF (rstrip l) = true := by
  rcases (hasSub_iff efPat l).1 h with ⟨u, v, rfl⟩
  have hrev : (u ++ efPat ++ v).reverse
      = v.reverse ++ (efPat.reverse ++ u.reverse) := by simp
  rw [hasEF, rstrip, hrev, List.dropWhile_append]
  by_cases hv : (v.reverse.dropWhile Char.isWhitespace).isEmpty
  · simp only [hv, if_true]
    have hm : efPat.reverse = 'm' :: ("orf detcartxe".toList) := by decide
    rw [hm, List.cons_append, List.dropWhile_cons_of_neg (by decide),
      ← List.cons_append, ← hm]
    refine (hasSub_iff efPat _).2 ⟨u, [], ?_⟩
    simp
  · simp only [hv, if_false]
    refine (hasSub_iff efPat _).2
      ⟨u, (v.reverse.dropWhile Char.isWhitespace).reverse, ?_⟩
    simp

theorem hasEF_of_append_nl {m : Line} (h : hasEF (m ++ ['\n']) = true) :
    hasEF m = true := by
  rcases (hasSub_iff efPat _).1 h with ⟨u, v, huv⟩
  rcases List.eq_nil_or_concat v with rfl | ⟨v', z, rfl⟩
  · exfalso
    have := congrArg List.reverse huv
    simp only [List.reverse_append, List.append_nil] at this
    have hm : efPat.reverse = 'm' :: ("orf detcartxe".toList) := by decide
    rw [hm] at this
    simp at this
  · have := congrArg List.reverse huv
    simp only [List.concat_eq_append, List.reverse_append,
      List.reverse_cons, List.reverse_nil, List.nil_append] at this
    have hm2 : m.reverse = v'.reverse ++ efPat.reverse ++ u.reverse := by
      simpa using congrArg List.tail this
    have : m = u ++ efPat ++ v' := by
      have := congrArg List.reverse hm2
      simpa using this
    exact (hasSub_iff efPat m).2 ⟨u, v', this⟩

/-! ### Lemmas about the output buffer -/

theorem stripTrailing_nil : stripTrailing [] = [] := rfl

theorem stripTrailing_append_nil (xs : List Line) :
    stripTrailing (xs ++ [[]]) = stripTrailing xs := by
  simp [stripTrailing, List.dropWhile_cons_of_pos]

theorem stripTrailing_concat_ne {a : Line} (xs : List Line) (h : a ≠ []) :
    stripTrailing (xs ++ [a]) = xs ++ [a] := by
  have hne : a.isEmpty = false := by
    cases a with
    | nil => exact absurd rfl h
    | cons x l => rfl
  simp [stripTrailing, List.dropWhile_cons_of_neg, hne]

theorem stripTrailing_cons {a : Line} (h : a ≠ []) (xs : List Line) :
    stripTrailing (a :: xs) = a :: stripTrailing xs := by
  have hne : ¬ a.isEmpty = true := by
    cases a with
    | nil => exact absurd rfl h
    | cons x l => simp
  simp only [stripTrailing, List.reverse_cons, List.dropWhile_append]
  by_cases hxs : (xs.reverse.dropWhile List.isEmpty).isEmpty
  · rw [if_pos hxs, List.dropWhile_cons_of_neg hne]
    have : xs.reverse.dropWhile List.isEmpty = [] := by
      simpa [List.isEmpty_iff] using hxs
    simp [this]
  · rw [if_neg hxs]
    simp

theorem mem_stripTrailing {a : Line} {xs : List Line}
    (h : a ∈ stripTrailing xs) : a ∈ xs := by
  have h1 : a ∈ xs.reverse.dropWhile List.isEmpty := by
    simpa [stripTrailing] using h
  have h2 := (List.dropWhile_sublist (l := xs.reverse)
    (p := List.isEmpty)).subset h1
  simpa using h2

/-! ### The content filter -/

theorem filterContent_eq (common : List Line) (content : List Line) :
    filterContent common content
      = (content.filter (fun l => !(decide (entryOf l ∈ common))),
         (content.filter (fun l => decide (entryOf l ∈ common))).length) := by
  induction content with
  | nil => rfl
  | cons l rest ih =>
    by_cases h : entryOf l ∈ common
    · simp [filterContent, ih, h, List.filter]
    · simp [filterContent, ih, h, List.filter]

theorem filterContent_fst_sub (common : List Line) (content : List Line) :
    (filterContent common content).1 ⊆ content := by
  rw [filterContent_eq]
  exact List.filter_subset' content

theorem mem_filterContent_not_mem {common : List Line} {content : List Line}
    {l : Line} (h : l ∈ (filterContent common content).1) :
    entryOf l ∉ common := by
  rw [filterContent_eq] at h
  simpa using (List.mem_filter.1 h).2

theorem filterContent_of_not_mem {common : List Line} {content : List Line}
    (h : ∀ l ∈ content, entryOf l ∉ common) :
    filterContent common content = (content, 0) := by
  rw [filterContent_eq]
  have h1 : content.filter (fun l => !(decide (entryOf l ∈ common))) = content :=
    List.filter_eq_self.2 (by simpa using h)
  have h2 : content.filter (fun l => decide (entryOf l ∈ common)) = [] :=
    List.filter_eq_nil_iff.2 (by simpa using h)
  simp [h1, h2]

/-! ### The section-processing loop -/

theorem processLoop_eq (common : List Line) (secs : List Section)
    (out : List Line) (r : Nat) :
    processLoop common secs out r
      = (out ++ sectionsOut common secs, r + totalRemoved common secs) := by
  induction secs generalizing out r with
  | nil => simp [processLoop, sectionsOut, totalRemoved]
  | cons sec rest ih =>
    by_cases hc : sec.content.isEmpty
    · have hc' : sec.content = [] := by simpa [List.isEmpty_iff] using hc
      simp [processLoop, hc, sectionsOut, totalRemoved, secOut, secRemoved,
        hc', filterContent, ih]
    · by_cases hf : ((filterContent common sec.content).1).isEmpty
      all_goals
        simp [processLoop, hc, hf, ih, sectionsOut, totalRemoved, secOut,
          secRemoved, Nat.add_assoc, List.append_assoc]

theorem sectionsOut_eq_emit (common : List Line) (secs : List Section) :
    sectionsOut common secs = emitSecs (survivors common secs) := by
  induction secs with
  | nil => rfl
  | cons s rest ih =>
    by_cases hc : s.content.isEmpty
    · have hc' : s.content = [] := by simpa [List.isEmpty_iff] using hc
      have : (filterContent common s.content).1 = [] := by
        simp [hc', filterContent]
      simp [sectionsOut, survivors, secOut, hc, this, ih]
    · by_cases hf : ((filterContent common s.content).1).isEmpty
      · simp [sectionsOut, survivors, secOut, hc, hf, ih]
      · simp [sectionsOut, survivors, secOut, emitSecs, hc, hf, ih]

theorem survivors_content_ne_nil {common : List Line} {secs : List Section}
    {t : Section} (h : t ∈ survivors common secs) : t.content ≠ [] := by
  induction secs with
  | nil => simp [survivors] at h
  | cons s rest ih =>
    simp only [survivors, List.mem_append] at h
    rcases h with h | h
    · by_cases hf : ((filterContent common s.content).1).isEmpty
      · simp [hf] at h
      · rw [if_neg hf] at h
        rw [List.mem_singleton] at h
        subst h
        simpa [List.isEmpty_iff] using hf
    · exact ih h

theorem survivors_entry_not_mem {common : List Line} {secs : List Section}
    {t : Section} (h : t ∈ survivors common secs) :
    ∀ l ∈ t.content, entryOf l ∉ common := by
  induction secs with
  | nil => simp [survivors] at h
  | cons s rest ih =>
    simp only [survivors, List.mem_append] at h
    rcases h with h | h
    · by_cases hf : ((filterContent common s.content).1).isEmpty
      · simp [hf] at h
      · rw [if_neg hf] at h
        rw [List.mem_singleton] at h
        subst h
        intro l hl
        exact mem_filterContent_not_mem hl
    · exact ih h

theorem survivors_content_sub {common : List Line} {secs : List Section}
    {t : Section} (h : t ∈ survivors common secs) :
    ∃ s ∈ secs, s.header = t.header ∧ t.content ⊆ s.content := by
  induction secs with
  | nil => simp [survivors] at h
  | cons s rest ih =>
    simp only [survivors, List.mem_append] at h
    rcases h with h | h
    · by_cases hf : ((filterContent common s.content).1).isEmpty
      · simp [hf] at h
      · rw [if_neg hf] at h
        rw [List.mem_singleton] at h
        subst h
        exact ⟨s, by simp, rfl, filterContent_fst_sub common s.content⟩
    · rcases ih h with ⟨s', hs', hh, hsub⟩
      exact ⟨s', by simp [hs'], hh, hsub⟩

theorem sectionsOut_of_survivors (common : List Line) (svs : List Section)
    (h : ∀ t ∈ svs, t.content ≠ [] ∧ ∀ l ∈ t.content, entryOf l ∉ common) :
    sectionsOut common svs = emitSecs svs ∧ totalRemoved common svs = 0 := by
  induction svs with
  | nil => exact ⟨rfl, rfl⟩
  | cons t rest ih =>
    have ht := h t (by simp)
    have hfc : filterContent common t.content = (t.content, 0) :=
      filterContent_of_not_mem ht.2
    have hcne : ¬ t.content.isEmpty = true := by
      simpa [List.isEmpty_iff] using ht.1
    have hfne : ¬ (t.content : List Line).isEmpty = true := hcne
    have ihr := ih (fun t' ht' => h t' (by simp [ht']))
    constructor
    · simp [sectionsOut, emitSecs, secOut, hfc, hcne, hfne, ihr.1, ht.1]
    · simp [totalRemoved, secRemoved, hfc, ihr.2]

/-! ### Lemmas about the parsing loop -/

theorem startsHash_ne_nil {l : Line} (h : startsHash l = true) : l ≠ [] := by
  cases l with
  | nil => simp [startsHash] at h
  | cons c cs => simp

theorem scan_append (l1 l2 : List Line) :
    ∀ cur acc, scan cur acc (l1 ++ l2)
      = scan (scan cur acc l1).1 (scan cur acc l1).2 l2 := by
  induction l1 with
  | nil => intro cur acc; rfl
  | cons l rest ih =>
    intro cur acc
    rw [List.cons_append]
    show scan (scanStep cur acc l).1 (scanStep cur acc l).2 (rest ++ l2) = _
    rw [ih]
    rfl

theorem scanStep_header {l : Line} (h : startsHash (rstrip l) = true)
    (cur : Option Section) (acc : List Section) :
    scanStep cur acc l = (some ⟨rstrip l, []⟩, pushCur cur acc) := by
  simp [scanStep, h]

theorem scanStep_blank {l : Line} (h1 : startsHash (rstrip l) = false)
    (h2 : (strip (rstrip l)).isEmpty = true)
    (cur : Option Section) (acc : List Section) :
    scanStep cur acc l = (cur, acc) := by
  cases cur with
  | none => simp [scanStep, h1]
  | some s => simp [scanStep, h1, h2]

theorem scanStep_content {l : Line} (h1 : startsHash (rstrip l) = false)
    (h2 : (strip (rstrip l)).isEmpty = false)
    (s : Section) (acc : List Section) :
    scanStep (some s) acc l
      = (some ⟨s.header, s.content ++ [rstrip l]⟩, acc) := by
  simp [scanStep, h1, h2]

theorem scanStep_none_skip {l : Line} (h1 : startsHash (rstrip l) = false)
    (acc : List Section) :
    scanStep none acc l = (none, acc) := by
  simp [scanStep, h1]

theorem scan_cons_header {l : Line} (h1 : startsHash (rstrip l) = true)
    (cur : Option Section) (acc : List Section) (rest : List Line) :
    scan cur acc (l :: rest)
      = scan (some ⟨rstrip l, []⟩) (pushCur cur acc) rest := by
  show scan (scanStep cur acc l).1 (scanStep cur acc l).2 rest = _
  rw [scanStep_header h1]

theorem scan_cons_blank {l : Line} (h1 : startsHash (rstrip l) = false)
    (h2 : (strip (rstrip l)).isEmpty = true)
    (cur : Option Section) (acc : List Section) (rest : List Line) :
    scan cur acc (l :: rest) = scan cur acc rest := by
  show scan (scanStep cur acc l).1 (scanStep cur acc l).2 rest = _
  rw [scanStep_blank h1 h2]

theorem scan_cons_content {l : Line} (h1 : startsHash (rstrip l) = false)
    (h2 : (strip (rstrip l)).isEmpty = false)
    (s : Section) (acc : List Section) (rest : List Line) :
    scan (some s) acc (l :: rest)
      = scan (some ⟨s.header, s.content ++ [rstrip l]⟩) acc rest := by
  show scan (scanStep (some s) acc l).1 (scanStep (some s) acc l).2 rest = _
  rw [scanStep_content h1 h2]

theorem scan_cons_none {l : Line} (h1 : startsHash (rstrip l) = false)
    (acc : List Section) (rest : List Line) :
    scan none acc (l :: rest) = scan none acc rest := by
  show scan (scanStep none acc l).1 (scanStep none acc l).2 rest = _
  rw [scanStep_none_skip h1]

theorem bool_eq_false {b : Bool} (h : ¬ b = true) : b = false := by
  cases b
  · rfl
  · exact absurd rfl h

theorem scan_good (lines : List Line) (hln : ∀ l ∈ lines, '\n' ∉ rstrip l) :
    ∀ cur acc, (∀ s, cur = some s → goodSec s) → (∀ s ∈ acc, goodSec s) →
      (∀ s, (scan cur acc lines).1 = some s → goodSec s)
        ∧ (∀ s ∈ (scan cur acc lines).2, goodSec s) := by
  induction lines with
  | nil =>
    intro cur acc hc ha
    exact ⟨fun s hs => hc s hs, ha⟩
  | cons l rest ih =>
    intro cur acc hc ha
    have hln_l : '\n' ∉ rstrip l := hln l (by simp)
    have hln' : ∀ l' ∈ rest, '\n' ∉ rstrip l' := fun l' hl' => hln l' (by simp [hl'])
    by_cases h1 : startsHash (rstrip l) = true
    · rw [scan_cons_header h1]
      refine ih hln' _ _ ?_ ?_
      · intro s hs
        obtain rfl := Option.some.inj hs
        exact ⟨⟨h1, rstrip_idem l, hln_l⟩, by simp⟩
      · intro s hs
        cases cur with
        | none => exact ha s hs
        | some t =>
          have hs' : s ∈ acc ++ [t] := hs
          rcases List.mem_append.1 hs' with hs2 | hs2
          · exact ha s hs2
          · obtain rfl := List.mem_singleton.1 hs2
            exact hc s rfl
    · have h1' : startsHash (rstrip l) = false := bool_eq_false h1
      cases cur with
      | none =>
        rw [scan_cons_none h1']
        exact ih hln' _ _ (by simp) ha
      | some t =>
        by_cases h2 : (strip (rstrip l)).isEmpty = true
        · rw [scan_cons_blank h1' h2]
          exact ih hln' _ _ hc ha
        · have h2' : (strip (rstrip l)).isEmpty = false := bool_eq_false h2
          rw [scan_cons_content h1' h2']
          refine ih hln' _ _ ?_ ha
          intro s hs
          obtain rfl := Option.some.inj hs
          have ht := hc t rfl
          refine ⟨ht.1, ?_⟩
          intro x hx
          rcases List.mem_append.1 hx with hx2 | hx2
          · exact ht.2 x hx2
          · obtain rfl := List.mem_singleton.1 hx2
            exact ⟨h1', rstrip_idem l, h2', hln_l⟩

theorem mem_finalize {s : Section} {cur : Option Section} {acc : List Section}
    (h : s ∈ finalize cur acc) : s ∈ acc ∨ cur = some s := by
  cases cur with
  | none => exact Or.inl h
  | some t =>
    by_cases hg : (t.content.isEmpty && t.header.isEmpty) = true
    · have heq : finalize (some t) acc = acc := by simp [finalize, hg]
      rw [heq] at h
      exact Or.inl h
    · have heq : finalize (some t) acc = acc ++ [t] := by
        simp only [finalize]
        rw [if_neg hg]
      rw [heq] at h
      rcases List.mem_append.1 h with h2 | h2
      · exact Or.inl h2
      · obtain rfl := List.mem_singleton.1 h2
        exact Or.inr rfl

theorem parseLines_good (lines : List Line)
    (hln : ∀ l ∈ lines, '\n' ∉ rstrip l) :
    ∀ s ∈ parseLines lines, goodSec s := by
  intro s hs
  have h := scan_good lines hln none [] (by simp) (by simp)
  have hs' : s ∈ finalize (scan none [] lines).1 (scan none [] lines).2 := hs
  rcases mem_finalize hs' with h2 | h2
  · exact h.2 s h2
  · exact h.1 s h2

theorem provSplit_snd_sub (sl : Option Line) (ls : List Line) :
    ∀ l ∈ (provSplit sl ls).2, l ∈ ls := by
  intro l hl
  cases ls with
  | nil => simp [provSplit] at hl
  | cons l0 rest =>
    by_cases h : hasEF l0 = true
    · simp only [provSplit, h, if_true] at hl
      simp [hl]
    · have h' : hasEF l0 = false := by
        cases hh : hasEF l0
        · rfl
        · exact absurd hh h
      simp only [provSplit, h', Bool.false_eq_true, if_false] at hl
      exact hl

theorem parse_file_good (sl : Option Line) (lines : List Line)
    (hln : ∀ l ∈ lines, '\n' ∉ rstrip l) :
    ∀ s ∈ (parse_file sl lines).2, goodSec s := by
  intro s hs
  refine parseLines_good (provSplit sl lines).2 ?_ s hs
  intro l hl
  exact hln l (provSplit_snd_sub sl lines l hl)

theorem provSplit_fst (sl : Option Line) (ls : List Line) :
    (provSplit sl ls).1 = sl
      ∨ ∃ rest, ls = (provSplit sl ls).1.getD [] :: rest
          ∧ hasEF ((provSplit sl ls).1.getD []) = true := by
  cases ls with
  | nil => exact Or.inl rfl
  | cons l0 rest =>
    by_cases h : hasEF l0 = true
    · exact Or.inr ⟨rest, by simp [provSplit, h]⟩
    · have h' : hasEF l0 = false := by
        cases hh : hasEF l0
        · rfl
        · exact absurd hh h
      exact Or.inl (by simp [provSplit, h'])

theorem finalize_of_header_ne {cur : Option Section} {acc : List Section}
    (h : ∀ s, cur = some s → s.header.isEmpty = false) :
    finalize cur acc = pushCur cur acc := by
  cases cur with
  | none => rfl
  | some t =>
    have ht := h t rfl
    simp [finalize, pushCur, ht]

theorem scan_headers (ls : List Line) :
    ∀ cur acc, (∀ s, cur = some s → s.header.isEmpty = false) →
      (finalize (scan cur acc ls).1 (scan cur acc ls).2).map Section.header
        = (finalize cur acc).map Section.header
            ++ ((ls.map rstrip).filter startsHash) := by
  induction ls with
  | nil =>
    intro cur acc h
    show (finalize cur acc).map Section.header = _
    simp
  | cons l rest ih =>
    intro cur acc h
    by_cases h1 : startsHash (rstrip l) = true
    · rw [scan_cons_header h1]
      rw [ih _ _ ?inv]
      case inv =>
        intro s hs
        obtain rfl := Option.some.inj hs
        have := startsHash_ne_nil h1
        cases hh : (rstrip l).isEmpty
        · rfl
        · exact absurd (by simpa [List.isEmpty_iff] using hh) this
      rw [finalize_of_header_ne ?hne]
      case hne =>
        intro s hs
        obtain rfl := Option.some.inj hs
        have := startsHash_ne_nil h1
        cases hh : (rstrip l).isEmpty
        · rfl
        · exact absurd (by simpa [List.isEmpty_iff] using hh) this
      rw [finalize_of_header_ne h]
      cases cur with
      | none => simp [pushCur, h1]
      | some t => simp [pushCur, h1]
    · have h1' : startsHash (rstrip l) = false := bool_eq_false h1
      cases cur with
      | none =>
        rw [scan_cons_none h1']
        rw [ih _ _ (by simp)]
        simp [h1']
      | some t =>
        by_cases h2 : (strip (rstrip l)).isEmpty = true
        · rw [scan_cons_blank h1' h2]
          rw [ih _ _ h]
          simp [h1']
        · have h2' : (strip (rstrip l)).isEmpty = false := bool_eq_false h2
          rw [scan_cons_content h1' h2']
          rw [ih _ _ ?inv2]
          case inv2 =>
            intro s hs
            obtain rfl := Option.some.inj hs
            exact h t rfl
          have hfin : ∀ acc' : List Section,
              (finalize (some (⟨t.header, t.content ++ [rstrip l]⟩ : Section)) acc').map
                Section.header = (finalize (some t) acc').map Section.header := by
            intro acc'
            rw [finalize_of_header_ne (by rintro s hs; exact Option.some.inj hs ▸ h t rfl)]
            rw [finalize_of_header_ne (fun s hs => by
              obtain rfl := Option.some.inj hs; exact h t rfl)]
            simp [pushCur]
          rw [hfin]
          simp [h1']

theorem parseLines_headers (ls : List Line) :
    (parseLines ls).map Section.header
      = ((ls.map rstrip).filter startsHash) := by
  have h := scan_headers ls none [] (by simp)
  show (finalize (scan none [] ls).1 (scan none [] ls).2).map Section.header = _
  rw [h]
  rfl

/-- While no section is open, non-header lines are skipped: a header-free
prefix of the input contributes nothing to the parse. -/
theorem scan_none_skip_all (pre : List Line)
    (h : ∀ l ∈ pre, startsHash (rstrip l) = false)
    (acc : List Section) (rest : List Line) :
    scan none acc (pre ++ rest) = scan none acc rest := by
  induction pre with
  | nil => rfl
  | cons l p ih =>
    rw [List.cons_append, scan_cons_none (h l (by simp))]
    exact ih (fun l' hl' => h l' (by simp [hl']))

theorem parseLines_drop_preheader (pre rest : List Line)
    (h : ∀ l ∈ pre, startsHash (rstrip l) = false) :
    parseLines (pre ++ rest) = parseLines rest := by
  show finalize (scan none [] (pre ++ rest)).1
    (scan none [] (pre ++ rest)).2 = _
  rw [scan_none_skip_all pre h]
  rfl

/-! ### Lemmas about the common-entry set -/

theorem mem_addEntry {x e : Line} {s : List Line} (h : x ∈ addEntry s e) :
    x ∈ s ∨ x = e := by
  by_cases he : e ∈ s
  · simp only [addEntry, if_pos he] at h
    exact Or.inl h
  · simp only [addEntry, if_neg he] at h
    rcases List.mem_append.1 h with h2 | h2
    · exact Or.inl h2
    · exact Or.inr (List.mem_singleton.1 h2)

theorem load_common_foldl_content (content : List Line) :
    ∀ s : List Line, ([] : Line) ∉ s →
      ([] : Line) ∉ content.foldl
        (fun s l =>
          let entry := entryOf l
          if entry.isEmpty then s else addEntry s entry) s := by
  induction content with
  | nil => intro s hs; exact hs
  | cons l rest ih =>
    intro s hs
    by_cases he : (entryOf l).isEmpty = true
    · simp only [List.foldl_cons, if_pos he]
      exact ih s hs
    · simp only [List.foldl_cons, if_neg he]
      refine ih _ ?_
      intro hmem
      rcases mem_addEntry hmem with h2 | h2
      · exact hs h2
      · rw [← h2] at he
        exact he rfl

theorem load_common_no_nil (secs : List Section) :
    ([] : Line) ∉ load_common_entries secs := by
  rw [load_common_entries]
  generalize hgen : ([] : List Line) = s0
  have hs0 : ([] : Line) ∉ s0 := by rw [← hgen]; simp
  clear hgen
  induction secs generalizing s0 with
  | nil => exact hs0
  | cons sec rest ih =>
    simp only [List.foldl_cons]
    exact ih _ (load_common_foldl_content sec.content s0 hs0)

/-! ### Capture of the provenance line -/

theorem parse_file_fst_capture {source_line : Option Line} {l0 : Line}
    {rest : List Line} (h : hasEF l0 = true) :
    (parse_file source_line (l0 :: rest)).1 = some l0 := by
  simp [parse_file, provSplit, h]

theorem parse_file_fst_skip {source_line : Option Line} {ls : List Line}
    (h : ∀ l0, ls.head? = some l0 → hasEF l0 = false) :
    (parse_file source_line ls).1 = source_line := by
  cases ls with
  | nil => rfl
  | cons l0 rest =>
    have h0 : hasEF l0 = false := h l0 rfl
    simp [parse_file, provSplit, h0]

theorem parse_file_snd_capture {source_line : Option Line} {l0 : Line}
    {rest : List Line} (h : hasEF l0 = true) :
    (parse_file source_line (l0 :: rest)).2 = parseLines rest := by
  simp [parse_file, provSplit, h]

theorem parse_file_snd_skip {source_line : Option Line} {ls : List Line}
    (h : ∀ l0, ls.head? = some l0 → hasEF l0 = false) :
    (parse_file source_line ls).2 = parseLines ls := by
  cases ls with
  | nil => rfl
  | cons l0 rest =>
    have h0 : hasEF l0 = false := h l0 rfl
    simp [parse_file, provSplit, h0]

/-! ### Lemmas about `readlines` and `joinLines` -/

theorem readlinesAux_cons_nl (cur : Line) (cs : List Char) :
    readlinesAux cur ('\n' :: cs)
      = (cur.reverse ++ ['\n']) :: readlinesAux [] cs := by
  simp [readlinesAux]

theorem readlinesAux_cons_other {c : Char} (h : ¬ c = '\n')
    (cur : Line) (cs : List Char) :
    readlinesAux cur (c :: cs) = readlinesAux (c :: cur) cs := by
  simp [readlinesAux, h]

theorem readlinesAux_no_nl (s : List Char) :
    ∀ cur, '\n' ∉ cur → ∀ l ∈ readlinesAux cur s, '\n' ∉ rstrip l := by
  induction s with
  | nil =>
    intro cur hcur l hl
    by_cases h : cur.isEmpty = true
    · simp [readlinesAux, h] at hl
    · have h' : cur.isEmpty = false := bool_eq_false h
      simp only [readlinesAux, h', Bool.false_eq_true, if_false,
        List.mem_singleton] at hl
      subst hl
      intro hmem
      exact hcur (by simpa using mem_of_mem_rstrip hmem)
  | cons c cs ih =>
    intro cur hcur l hl
    by_cases h : c = '\n'
    · subst h
      rw [readlinesAux_cons_nl] at hl
      rcases List.mem_cons.1 hl with rfl | hl2
      · rw [rstrip_append_nl]
        intro hmem
        exact hcur (by simpa using mem_of_mem_rstrip hmem)
      · exact ih [] (by simp) l hl2
    · rw [readlinesAux_cons_other h] at hl
      refine ih (c :: cur) ?_ l hl
      intro hmem
      rcases List.mem_cons.1 hmem with hc | hc
      · exact h hc.symm
      · exact hcur hc

theorem readlines_no_nl (s : List Char) :
    ∀ l ∈ readlines s, '\n' ∉ rstrip l :=
  readlinesAux_no_nl s [] (by simp)

theorem readlinesAux_chunk {m : Line} (hm : '\n' ∉ m) :
    ∀ cur rest, readlinesAux cur (m ++ '\n' :: rest)
      = ((cur.reverse ++ m) ++ ['\n']) :: readlinesAux [] rest := by
  induction m with
  | nil =>
    intro cur rest
    simp [readlinesAux]
  | cons a m' ih =>
    intro cur rest
    have ha : ¬ a = '\n' := fun h => hm (by simp [h])
    have hm' : '\n' ∉ m' := fun h => hm (by simp [h])
    rw [List.cons_append]
    rw [readlinesAux_cons_other ha, ih hm']
    simp

/-- The `self.source_line` left by parsing the common file alone. -/
theorem sl1_spec (c : List Char) :
    (parse_file none (readlines c)).1 = none
      ∨ ∃ sl, (parse_file none (readlines c)).1 = some sl
          ∧ hasEF sl = true ∧ '\n' ∉ rstrip sl := by
  cases hc : readlines c with
  | nil => left; rfl
  | cons c0 restc =>
    by_cases hefc : hasEF c0 = true
    · right
      refine ⟨c0, ?_, hefc, readlines_no_nl c c0 (by rw [hc]; simp)⟩
      exact parse_file_fst_capture hefc
    · left
      exact parse_file_fst_skip (fun x hx => by
        obtain rfl := Option.some.inj hx
        exact bool_eq_false hefc)

/-- Whatever `self.source_line` holds after the two parses was captured from
the first line of one of the two files: it contains the marker substring and
is newline-free after rstripping. -/
theorem slOf_spec (c d : List Char) :
    slOf c d = none
      ∨ ∃ sl, slOf c d = some sl ∧ hasEF sl = true ∧ '\n' ∉ rstrip sl := by
  rw [slOf]
  cases hd : readlines d with
  | nil =>
    have heq : (parse_file (parse_file none (readlines c)).1 ([] : List Line)).1
        = (parse_file none (readlines c)).1 := rfl
    rw [heq]
    exact sl1_spec c
  | cons l0 rest =>
    by_cases hef : hasEF l0 = true
    · right
      exact ⟨l0, parse_file_fst_capture hef, hef,
        readlines_no_nl d l0 (by rw [hd]; simp)⟩
    · rw [parse_file_fst_skip (fun x hx => by
        obtain rfl := Option.some.inj hx
        exact bool_eq_false hef)]
      exact sl1_spec c

/-! ### Re-parsing emitted output -/

theorem goodContentLine_ne_nil {l : Line} (h : goodContentLine l) :
    l ≠ [] := by
  rintro rfl
  have : (strip ([] : Line)).isEmpty = true := rfl
  rw [h.2.2.1] at this
  cases this

theorem scan_content_steps (hd : Line) (cont : List Line)
    (hc : ∀ l ∈ cont, goodContentLine l) :
    ∀ done acc rest,
      scan (some ⟨hd, done⟩) acc (cont.map (fun l => l ++ ['\n']) ++ rest)
        = scan (some ⟨hd, done ++ cont⟩) acc rest := by
  induction cont with
  | nil => intro done acc rest; simp
  | cons c cs ih =>
    intro done acc rest
    have hgc := hc c (by simp)
    have hr : rstrip (c ++ ['\n']) = c := by rw [rstrip_append_nl, hgc.2.1]
    rw [List.map_cons, List.cons_append]
    rw [scan_cons_content (by rw [hr]; exact hgc.1)
      (by rw [hr]; exact hgc.2.2.1)]
    rw [hr]
    rw [ih (fun l hl => hc l (by simp [hl])) (done ++ [c]) acc rest]
    simp

theorem scan_emit_block (s : Section) (hs : goodSec s) (tail : List Line)
    (cur : Option Section) (acc : List Section) :
    scan cur acc (((s.header :: s.content ++ [[]]) ++ tail).map
      (fun l => l ++ ['\n']))
      = scan (some s) (pushCur cur acc) (tail.map (fun l => l ++ ['\n'])) := by
  have hh : rstrip (s.header ++ ['\n']) = s.header := by
    rw [rstrip_append_nl, hs.1.2.1]
  simp only [List.map_append, List.map_cons, List.map_nil, List.cons_append,
    List.nil_append, List.append_assoc]
  rw [scan_cons_header (by rw [hh]; exact hs.1.1)]
  rw [hh]
  rw [scan_content_steps s.header s.content hs.2 [] _ _]
  rw [scan_cons_blank (by decide) (by decide)]
  rfl

theorem scan_emit_all (svs : List Section) (hgood : ∀ t ∈ svs, goodSec t) :
    ∀ cur acc,
      finalize (scan cur acc ((emitSecs svs).map (fun l => l ++ ['\n']))).1
          (scan cur acc ((emitSecs svs).map (fun l => l ++ ['\n']))).2
        = if svs.isEmpty then finalize cur acc else pushCur cur acc ++ svs := by
  induction svs with
  | nil => intro cur acc; rfl
  | cons t rest ih =>
    intro cur acc
    have hblock : emitSecs (t :: rest)
        = (t.header :: t.content ++ [[]]) ++ emitSecs rest := rfl
    rw [hblock]
    rw [scan_emit_block t (hgood t (by simp)) (emitSecs rest) cur acc]
    rw [ih (fun u hu => hgood u (by simp [hu])) (some t) (pushCur cur acc)]
    by_cases hr : rest.isEmpty = true
    · have hrn : rest = [] := by simpa [List.isEmpty_iff] using hr
      subst hrn
      have hne : t.header.isEmpty = false := by
        have h1 := startsHash_ne_nil (hgood t (by simp)).1.1
        cases hh : t.header.isEmpty
        · rfl
        · exact absurd (by simpa [List.isEmpty_iff] using hh) h1
      simp [finalize, hne, pushCur]
    · have hr' : rest.isEmpty = false := bool_eq_false hr
      simp [hr', pushCur]

theorem parseLines_emit (svs : List Section) (hgood : ∀ t ∈ svs, goodSec t) :
    parseLines ((emitSecs svs).map (fun l => l ++ ['\n'])) = svs := by
  have h := scan_emit_all svs hgood none []
  show finalize (scan none [] _).1 (scan none [] _).2 = svs
  rw [h]
  cases svs with
  | nil => rfl
  | cons t rest => simp [pushCur]

theorem parseLines_cons_blank (ls : List Line) :
    parseLines (['\n'] :: ls) = parseLines ls := by
  show finalize (scan none [] (['\n'] :: ls)).1
    (scan none [] (['\n'] :: ls)).2 = _
  rw [scan_cons_blank (by decide) (by decide)]
  rfl

theorem parseLines_append_blank (ls : List Line) :
    parseLines (ls ++ [['\n']]) = parseLines ls := by
  show finalize (scan none [] (ls ++ [['\n']])).1
    (scan none [] (ls ++ [['\n']])).2 = _
  rw [scan_append]
  rw [scan_cons_blank (by decide) (by decide)]
  rfl

theorem emitSecs_no_nl (svs : List Section) (h : ∀ t ∈ svs, goodSec t) :
    ∀ l ∈ emitSecs svs, '\n' ∉ l := by
  induction svs with
  | nil => simp [emitSecs]
  | cons t rest ih =>
    intro l hl
    have hblock : emitSecs (t :: rest)
        = (t.header :: t.content ++ [[]]) ++ emitSecs rest := rfl
    rw [hblock] at hl
    rcases List.mem_append.1 hl with hl2 | hl2
    · rcases List.mem_cons.1 hl2 with rfl | hl3
      · exact (h t (by simp)).1.2.2
      · rcases List.mem_append.1 hl3 with hl4 | hl4
        · exact ((h t (by simp)).2 l hl4).2.2.2
        · obtain rfl := List.mem_singleton.1 hl4
          simp
    · exact ih (fun u hu => h u (by simp [hu])) l hl2

theorem emitSecs_decomp (svs : List Section) (hgood : ∀ t ∈ svs, goodSec t)
    (hne : svs ≠ []) :
    ∃ b a, emitSecs svs = b ++ [a, []] ∧ a ≠ ([] : Line) := by
  induction svs with
  | nil => cases hne rfl
  | cons t rest ih =>
    cases rest with
    | nil =>
      rcases List.eq_nil_or_concat t.content with hc | ⟨c', z, hc⟩
      · refine ⟨[], t.header, ?_, startsHash_ne_nil (hgood t (by simp)).1.1⟩
        simp [emitSecs, hc]
      · refine ⟨t.header :: c', z, ?_,
          goodContentLine_ne_nil ((hgood t (by simp)).2 z (by simp [hc]))⟩
        simp [emitSecs, hc]
    | cons u rest' =>
      rcases ih (fun v hv => hgood v (by simp [hv])) (by simp) with
        ⟨b, a, hba, hane⟩
      refine ⟨(t.header :: t.content ++ [[]]) ++ b, a, ?_, hane⟩
      have hblock : emitSecs (t :: u :: rest')
          = (t.header :: t.content ++ [[]]) ++ emitSecs (u :: rest') := rfl
      rw [hblock, hba]
      simp

theorem joinLines_two (a b : Line) (t : List Line) :
    joinLines (a :: b :: t) = a ++ '\n' :: joinLines (b :: t) := rfl

theorem readlines_joinLines (ls : List Line) (h : ∀ l ∈ ls, '\n' ∉ l)
    (hne : ls ≠ []) :
    readlines (joinLines ls) = ls.map (fun l => l ++ ['\n']) := by
  induction ls with
  | nil => exact absurd rfl hne
  | cons a rest ih =>
    have ha : '\n' ∉ a := h a (by simp)
    cases rest with
    | nil =>
      show readlinesAux [] (a ++ ['\n']) = [a ++ ['\n']]
      have := readlinesAux_chunk ha [] []
      simpa [readlinesAux] using this
    | cons b t =>
      rw [joinLines_two]
      show readlinesAux [] (a ++ '\n' :: joinLines (b :: t)) = _
      rw [readlinesAux_chunk ha [] (joinLines (b :: t))]
      have ih' := ih (fun l hl => h l (List.mem_cons_of_mem a hl)) (by simp)
      rw [readlines] at ih'
      rw [ih']
      simp

theorem survivors_goodSec {common : List Line} {secs : List Section}
    (h : ∀ s ∈ secs, goodSec s) :
    ∀ t ∈ survivors common secs, goodSec t := by
  intro t ht
  rcases survivors_content_sub ht with ⟨s, hs, hh, hsub⟩
  exact ⟨hh ▸ (h s hs).1, fun l hl => (h s hs).2 l (hsub hl)⟩

theorem emitSecs_eq_nil {svs : List Section} (h : emitSecs svs = []) :
    svs = [] := by
  cases svs with
  | nil => rfl
  | cons t rest =>
    have : emitSecs (t :: rest) = (t.header :: t.content ++ [[]]) ++ emitSecs rest := rfl
    rw [this] at h
    cases h

/-- The sections of the parsed device file are all well-formed. -/
theorem secsOf_good (c d : List Char) : ∀ s ∈ secsOf c d, goodSec s := by
  intro s hs
  exact parse_file_good _ (readlines d)
    (fun l hl => readlines_no_nl d l hl) s hs

/-! ### Assembling a whole run, and re-running on its output -/

theorem run_eq (c d : List Char) :
    run c d = (joinLines (runOutputLines c d), removedOf c d) := rfl

theorem runOutputLines_eq (c d : List Char) :
    runOutputLines c d
      = stripTrailing (provPrefix (slOf c d)
          ++ emitSecs (survivors (commonOf c) (secsOf c d))) := by
  rw [runOutputLines]
  show stripTrailing (processLoop (commonOf c) (secsOf c d)
    (provPrefix (slOf c d)) 0).1 = _
  rw [processLoop_eq, sectionsOut_eq_emit]

theorem slOf_none_first {c d : List Char} (h : slOf c d = none) :
    (parse_file none (readlines c)).1 = none := by
  rw [slOf] at h
  cases hd : readlines d with
  | nil => rw [hd] at h; exact h
  | cons l0 rest =>
    rw [hd] at h
    by_cases hef : hasEF l0 = true
    · rw [parse_file_fst_capture hef] at h
      cases h
    · rw [parse_file_fst_skip (fun x hx => by
        obtain rfl := Option.some.inj hx
        exact bool_eq_false hef)] at h
      exact h

theorem stripTrailing_body (pre b : List Line) {a : Line} (ha : a ≠ []) :
    stripTrailing (pre ++ (b ++ [a, []])) = pre ++ b ++ [a] := by
  have hgrp : pre ++ (b ++ [a, []]) = ((pre ++ b ++ [a]) ++ [[]]) := by simp
  rw [hgrp, stripTrailing_append_nil, stripTrailing_concat_ne (pre ++ b) ha]

theorem parseLines_emit_dropLast (svs : List Section)
    (hgood : ∀ t ∈ svs, goodSec t) (b : List Line) (a : Line)
    (hdecomp : emitSecs svs = b ++ [a, []]) :
    parseLines ((b ++ [a]).map (fun l => l ++ ['\n'])) = svs := by
  have h1 : ((b ++ [a]).map (fun l => l ++ ['\n'])) ++ [['\n']]
      = (emitSecs svs).map (fun l => l ++ ['\n']) := by
    rw [hdecomp]
    simp
  have h2 := parseLines_append_blank ((b ++ [a]).map (fun l => l ++ ['\n']))
  rw [h1] at h2
  rw [parseLines_emit svs hgood] at h2
  exact h2.symm

theorem runOutputLines_no_nl (c d : List Char) :
    ∀ l ∈ runOutputLines c d, '\n' ∉ l := by
  intro l hl
  rw [runOutputLines_eq] at hl
  have hl2 := mem_stripTrailing hl
  rcases List.mem_append.1 hl2 with h1 | h1
  · rcases slOf_spec c d with h0 | ⟨sl, hsl, hef, hnl⟩
    · rw [h0] at h1
      simp [provPrefix] at h1
    · rw [hsl] at h1
      have hne : ¬ sl.isEmpty = true := by
        simpa [List.isEmpty_iff] using hasEF_ne_nil hef
      have hpp : provPrefix (some sl) = [rstrip sl, []] := by
        simp only [provPrefix]
        rw [if_neg hne]
      rw [hpp] at h1
      rcases List.mem_cons.1 h1 with rfl | h1'
      · exact hnl
      · obtain rfl := List.mem_singleton.1 h1'
        simp
  · exact emitSecs_no_nl _ (survivors_goodSec (secsOf_good c d)) l h1

theorem rstrip_double_nl (sl : Line) :
    rstrip (rstrip sl ++ ['\n']) = rstrip sl := by
  rw [rstrip_append_nl, rstrip_idem]

theorem process_device_file_eq (source_line : Option Line)
    (common : List Line) (secs : List Section) :
    process_device_file source_line common secs
      = (stripTrailing (provPrefix source_line ++ sectionsOut common secs),
         totalRemoved common secs) := by
  show (stripTrailing (processLoop common secs (provPrefix source_line) 0).1,
    (processLoop common secs (provPrefix source_line) 0).2) = _
  rw [processLoop_eq]
  simp

theorem slOf_def (x y : List Char) :
    slOf x y
      = (parse_file (parse_file none (readlines x)).1 (readlines y)).1 := rfl

theorem secsOf_def (x y : List Char) :
    secsOf x y
      = (parse_file (parse_file none (readlines x)).1 (readlines y)).2 := rfl

theorem runOutputLines_def (x y : List Char) :
    runOutputLines x y
      = (process_device_file (slOf x y) (commonOf x) (secsOf x y)).1 := rfl

theorem removedOf_def (x y : List Char) :
    removedOf x y
      = (process_device_file (slOf x y) (commonOf x) (secsOf x y)).2 := rfl

/-- If the second parse reproduces the surviving sections and an equivalent
provenance state, the second run reproduces the output and removes nothing. -/
theorem second_run_components (c d : List Char) (sl2 : Option Line)
    (hsl2 : slOf c (joinLines (runOutputLines c d)) = sl2)
    (hsecs2 : secsOf c (joinLines (runOutputLines c d))
        = survivors (commonOf c) (secsOf c d))
    (hprov : provPrefix sl2 = provPrefix (slOf c d)) :
    runOutputLines c (joinLines (runOutputLines c d)) = runOutputLines c d
      ∧ removedOf c (joinLines (runOutputLines c d)) = 0 := by
  have hsvprop : ∀ t ∈ survivors (commonOf c) (secsOf c d),
      t.content ≠ [] ∧ ∀ l ∈ t.content, entryOf l ∉ commonOf c :=
    fun t ht => ⟨survivors_content_ne_nil ht, survivors_entry_not_mem ht⟩
  have hsecOut := sectionsOut_of_survivors (commonOf c) _ hsvprop
  constructor
  · rw [runOutputLines_def c (joinLines (runOutputLines c d)), hsl2, hsecs2,
      process_device_file_eq, hsecOut.1, hprov, runOutputLines_eq c d]
  · rw [removedOf_def c (joinLines (runOutputLines c d)), hsl2, hsecs2,
      process_device_file_eq]
    exact hsecOut.2

/-! ### Lemmas about the file-system model -/

theorem is_file_exists {fs : FSys} {p : String} (h : is_file fs p = true) :
    fsExists fs p = true := by
  rw [is_file] at h
  rw [fsExists]
  cases hp : fs p with
  | none => rw [hp] at h; cases h
  | some n => simp

theorem validate_iff (fs : FSys) (c d : String) :
    validate_files fs c d = true
      ↔ (is_file fs c = true ∧ is_file fs d = true) := by
  simp only [validate_files, List.all_cons, List.all_nil, Bool.and_true,
    Bool.and_eq_true]
  constructor
  · rintro ⟨⟨_, h1⟩, _, h2⟩
    exact ⟨h1, h2⟩
  · rintro ⟨h1, h2⟩
    exact ⟨⟨is_file_exists h1, h1⟩, is_file_exists h2, h2⟩

theorem dedup_none_iff (fs : FSys) (c d : String) (dry : Bool) :
    deduplicate fs c d dry = none ↔ ¬ validate_files fs c d = true := by
  by_cases hv : validate_files fs c d = true
  · simp only [deduplicate, if_pos hv]
    cases dry <;> simp [hv]
  · simp [deduplicate, hv]

theorem is_file_congr {fs fs2 : FSys} (h : ∀ p, sameKind (fs p) (fs2 p))
    (p : String) : is_file fs p = is_file fs2 p := by
  have hp := h p
  rcases h1 : fs p with _ | n1 <;> rcases h2 : fs2 p with _ | n2 <;>
      rw [h1, h2] at hp <;> simp only [is_file, h1, h2] <;>
    first
      | rfl
      | exact False.elim hp
      | (cases n1 <;> first | rfl | exact False.elim hp)
      | (cases n2 <;> first | rfl | exact False.elim hp)
      | (cases n1 <;> cases n2 <;> first | rfl | exact False.elim hp)

theorem fsExists_congr {fs fs2 : FSys} (h : ∀ p, sameKind (fs p) (fs2 p))
    (p : String) : fsExists fs p = fsExists fs2 p := by
  have hp := h p
  rcases h1 : fs p with _ | n1 <;> rcases h2 : fs2 p with _ | n2 <;>
      rw [h1, h2] at hp <;> simp only [fsExists, h1, h2] <;>
    first
      | rfl
      | exact False.elim hp
      | (cases n1 <;> first | rfl | exact False.elim hp)
      | (cases n2 <;> first | rfl | exact False.elim hp)
      | (cases n1 <;> cases n2 <;> first | rfl | exact False.elim hp)

theorem validate_congr {fs fs2 : FSys} (h : ∀ p, sameKind (fs p) (fs2 p))
    (c d : String) : validate_files fs c d = validate_files fs2 c d := by
  simp only [validate_files, List.all_cons, List.all_nil]
  rw [is_file_congr h c, is_file_congr h d, fsExists_congr h c,
    fsExists_congr h d]

/-! ### The claims -/

/-- C1: a content line of a non-empty section is removed (and counted once in
`removed_count`) iff its Entry — the text before the first `'#'`, trimmed —
is a member of `common_entries`; every line whose Entry is not a member is
kept (with its comment suffix) in its original relative order. -/
theorem c1_removed_iff_member (common : List Line) (content : List Line) :
    (filterContent common content).1
        = content.filter (fun l => !(decide (entryOf l ∈ common)))
      ∧ (filterContent common content).2
        = (content.filter (fun l => decide (entryOf l ∈ common))).length := by
  rw [filterContent_eq]
  exact ⟨rfl, rfl⟩

/-- C2: a section all of whose content lines have Entries in
`common_entries` contributes nothing to the output (no header, no lines, no
blank separator), while a section with at least one surviving line
contributes its header, the surviving lines in order, and one blank line;
the output of `process_device_file` is the concatenation of these
contributions after the provenance prefix, with trailing blanks stripped. -/
theorem c2_section_elision (source_line : Option Line) (common : List Line)
    (secs : List Section) (sec : Section) :
    process_device_file source_line common secs
        = (stripTrailing (provPrefix source_line ++ sectionsOut common secs),
           totalRemoved common secs)
      ∧ ((∀ l ∈ sec.content, entryOf l ∈ common) → secOut common sec = [])
      ∧ ((filterContent common sec.content).1 ≠ [] →
          secOut common sec
            = sec.header :: (filterContent common sec.content).1 ++ [[]]) := by
  refine ⟨?_, ?_, ?_⟩
  · show (stripTrailing (processLoop common secs (provPrefix source_line) 0).1,
      (processLoop common secs (provPrefix source_line) 0).2) = _
    rw [processLoop_eq]
    simp
  · intro h
    by_cases hc : sec.content.isEmpty = true
    · simp [secOut, hc]
    · have hfe : (filterContent common sec.content).1 = [] := by
        rw [filterContent_eq]
        refine List.filter_eq_nil_iff.2 (fun l hl => ?_)
        simp [h l hl]
      simp [secOut, hc, hfe]
  · intro h
    have hc : ¬ sec.content.isEmpty = true := by
      intro hc
      rw [List.isEmpty_iff.1 hc] at h
      simp [filterContent] at h
    have hfe : ¬ ((filterContent common sec.content).1).isEmpty = true := by
      simpa [List.isEmpty_iff] using h
    simp only [secOut]
    rw [if_neg hc, if_neg hfe]

theorem c2_witness :
    secOut [("lib/a.so".toList)]
        ⟨"#h".toList, [("lib/a.so".toList)]⟩ = []
      ∧ secOut [("lib/a.so".toList)]
          ⟨"#h".toList, [("lib/b.so".toList)]⟩
        = (⟨"#h".toList, [("lib/b.so".toList)]⟩ : Section).header
            :: (filterContent [("lib/a.so".toList)]
                (⟨"#h".toList, [("lib/b.so".toList)]⟩ : Section).content).1
              ++ [[]] :=
  ⟨(c2_section_elision none [("lib/a.so".toList)] []
      ⟨"#h".toList, [("lib/a.so".toList)]⟩).2.1 (by decide),
   (c2_section_elision none [("lib/a.so".toList)] []
      ⟨"#h".toList, [("lib/b.so".toList)]⟩).2.2 (by decide)⟩

/-- C4: with common file `#comment\nlib/foo.so` and device file
`#comment\nlib/foo.so`, the run removes one line and produces the text
`"\n"` — the empty content with the single appended trailing newline, i.e.
the empty string after trailing-newline normalization. -/
theorem c4_full_elision_scenario :
    run ("#comment\nlib/foo.so".toList) ("#comment\nlib/foo.so".toList)
        = (['\n'], 1)
      ∧ (run ("#comment\nlib/foo.so".toList)
          ("#comment\nlib/foo.so".toList)).1.dropLast = [] := by
  constructor
  · decide
  · decide

/-- C6: for every input text, parsing returns the sections in encounter
order — their headers are exactly the rstripped `'#'`-lines in order, so a
section is retained whether or not its content is empty; stored content
lines are never blank and never header lines (so blank lines are never
stored as content); dropping any header-free prefix of the line stream does
not change the result, so lines occurring before the first header are
discarded; and parsing is a total function. -/
theorem c6_parse_order_total (source_line : Option Line) (text : List Char) :
    ((parse_file source_line (readlines text)).2).map Section.header
        = (((provSplit source_line (readlines text)).2.map rstrip).filter
            startsHash)
      ∧ (∀ s ∈ (parse_file source_line (readlines text)).2, ∀ l ∈ s.content,
          startsHash l = false ∧ (strip l).isEmpty = false)
      ∧ (∀ pre rest, (provSplit source_line (readlines text)).2 = pre ++ rest →
          (∀ l ∈ pre, startsHash (rstrip l) = false) →
          (parse_file source_line (readlines text)).2 = parseLines rest) := by
  have hmap : ((parse_file source_line (readlines text)).2).map Section.header
      = (((provSplit source_line (readlines text)).2.map rstrip).filter
          startsHash) := by
    show (parseLines (provSplit source_line (readlines text)).2).map
      Section.header = _
    exact parseLines_headers _
  refine ⟨hmap, ?_, ?_⟩
  · intro s hs l hl
    have hg := parse_file_good source_line (readlines text)
      (fun l' hl' => readlines_no_nl text l' hl') s hs
    exact ⟨(hg.2 l hl).1, (hg.2 l hl).2.2.1⟩
  · intro pre rest hsplit hpre
    show parseLines (provSplit source_line (readlines text)).2 = parseLines rest
    rw [hsplit]
    exact parseLines_drop_preheader pre rest hpre

theorem c6_witness :
    (parse_file none (readlines ("x\n\n#h\ny".toList))).2
      = parseLines ["#h\n".toList, "y".toList] :=
  (c6_parse_order_total none ("x\n\n#h\ny".toList)).2.2
    ["x\n".toList, "\n".toList] ["#h\n".toList, "y".toList]
    (by decide) (by decide)

/-- C7: the common-entry set never contains the empty Entry, and a device
content line whose Entry is empty (e.g. whitespace followed by a comment) is
never removed: it survives the filter and appears in its section's output. -/
theorem c7_empty_entry_never_removed (secs : List Section) (common : List Line)
    (sec : Section) (l : Line) (h1 : common = load_common_entries secs)
    (h2 : entryOf l = []) (h3 : l ∈ sec.content) :
    ([] : Line) ∉ common
      ∧ l ∈ (filterContent common sec.content).1
      ∧ l ∈ secOut common sec := by
  have hnil : ([] : Line) ∉ common := h1 ▸ load_common_no_nil secs
  have hno : entryOf l ∉ common := by rw [h2]; exact hnil
  have hmem : l ∈ (filterContent common sec.content).1 := by
    rw [filterContent_eq]
    exact List.mem_filter.2 ⟨h3, by simp [hno]⟩
  refine ⟨hnil, hmem, ?_⟩
  have hc : ¬ sec.content.isEmpty = true := by
    intro hc
    rw [List.isEmpty_iff.1 hc] at h3
    simp at h3
  have hfe : ¬ ((filterContent common sec.content).1).isEmpty = true := by
    intro hf
    rw [List.isEmpty_iff.1 hf] at hmem
    simp at hmem
  simp only [secOut]
  rw [if_neg hc, if_neg hfe]
  simp [hmem]

theorem c7_witness :
    ([] : Line) ∉ load_common_entries [⟨"#h".toList, [("lib/a.so".toList)]⟩]
      ∧ ("  # note".toList) ∈ (filterContent
          (load_common_entries [⟨"#h".toList, [("lib/a.so".toList)]⟩])
          [("  # note".toList)]).1
      ∧ ("  # note".toList) ∈ secOut
          (load_common_entries [⟨"#h".toList, [("lib/a.so".toList)]⟩])
          ⟨"#x".toList, [("  # note".toList)]⟩ :=
  c7_empty_entry_never_removed [⟨"#h".toList, [("lib/a.so".toList)]⟩]
    (load_common_entries [⟨"#h".toList, [("lib/a.so".toList)]⟩])
    ⟨"#x".toList, [("  # note".toList)]⟩ ("  # note".toList)
    rfl (by decide) (by decide)

/-- C9 (amended): on a completed run, dry-run mode writes nothing; non-dry
mode overwrites exactly the device path with the filtered text; and provided
the two argument paths differ, the common file is never modified.  (When the
same path is passed for both arguments, the non-dry write does modify the
common file — see the counterexample.) -/
theorem c9_side_effects (fs : FSys) (c d : String) (dry : Bool)
    (fs' : FSys) (n : Nat) (h : deduplicate fs c d dry = some (fs', n)) :
    (dry = true → fs' = fs)
      ∧ (dry = false →
          fs' d = some (FNode.file (run (readFile fs c) (readFile fs d)).1)
            ∧ ∀ p, p ≠ d → fs' p = fs p)
      ∧ (c ≠ d → fs' c = fs c) := by
  by_cases hv : validate_files fs c d = true
  · rw [deduplicate, if_pos hv] at h
    cases dry
    · rw [if_neg (by simp)] at h
      injection h with h1
      have hfs : fs' = fun p =>
          if p = d then some (FNode.file (run (readFile fs c) (readFile fs d)).1)
          else fs p :=
        (congrArg Prod.fst h1).symm
      refine ⟨fun hd => Bool.noConfusion hd, fun _ => ⟨?_, ?_⟩, fun hcd => ?_⟩
      · rw [hfs]
        simp
      · intro p hp
        rw [hfs]
        simp [hp]
      · rw [hfs]
        simp [hcd]
    · rw [if_pos rfl] at h
      injection h with h1
      have hfs : fs' = fs := (congrArg Prod.fst h1).symm
      exact ⟨fun _ => hfs, fun hd => Bool.noConfusion hd, fun _ => by rw [hfs]⟩
  · rw [deduplicate, if_neg hv] at h
    cases h

theorem c9_witness :
    ("c" : String) ≠ "d"
      ∧ dedupResW "d"
          = some (FNode.file (run (readFile fsW "c") (readFile fsW "d")).1)
      ∧ dedupResW "c" = fsW "c" :=
  ⟨by decide,
   ((c9_side_effects fsW "c" "d" false dedupResW 1 (by rfl)).2.1 rfl).1,
   (c9_side_effects fsW "c" "d" false dedupResW 1 (by rfl)).2.2 (by decide)⟩

/-- C9 counterexample: with the same path passed as both the common and the
device file, a non-dry run succeeds and rewrites that file — the common
file's contents are modified, refuting the unconditional claim. -/
theorem c9_counterexample :
    ((deduplicate (fun p => if p = "f"
          then some (FNode.file ("#h\nlib/a.so".toList)) else none)
        "f" "f" false).map (fun r => r.1 "f"))
      = some (some (FNode.file ['\n']))
    ∧ some (FNode.file ['\n'])
        ≠ some (FNode.file ("#h\nlib/a.so".toList)) :=
  ⟨by decide, by decide⟩

/-- C10: the run exits non-zero (models as `none`) iff one of the two paths
is not an existing regular file; otherwise it completes with exit status 0;
and the validation outcome depends only on the kind of each path's node,
never on any file content. -/
theorem c10_validation (fs : FSys) (c d : String) (dry : Bool) :
    ((deduplicate fs c d dry = none)
        ↔ ¬(is_file fs c = true ∧ is_file fs d = true))
      ∧ (∀ fs2 : FSys, (∀ p, sameKind (fs p) (fs2 p)) →
          ((deduplicate fs c d dry = none)
            ↔ (deduplicate fs2 c d dry = none))) := by
  constructor
  · rw [dedup_none_iff]
    exact not_congr (validate_iff fs c d)
  · intro fs2 hk
    rw [dedup_none_iff, dedup_none_iff, validate_congr hk c d]

/-- C8: `source_line` is captured from whichever file provides one, with the
device file winning (it is parsed second, so its assignment overwrites the
common file's); when only the common file provides one, that line is emitted
at the top of the rewritten device output. -/
theorem c8_source_line_precedence (c d : List Char) :
    (∀ l0 rest, readlines d = l0 :: rest → hasEF l0 = true →
        slOf c d = some l0)
      ∧ (∀ c0 restc, readlines c = c0 :: restc → hasEF c0 = true →
          (∀ l0, (readlines d).head? = some l0 → hasEF l0 = false) →
          slOf c d = some c0
            ∧ (runOutputLines c d).head? = some (rstrip c0)) := by
  constructor
  · intro l0 rest hd hef
    rw [slOf, hd]
    exact parse_file_fst_capture hef
  · intro c0 restc hc hefc hdno
    have hsl1 : (parse_file none (readlines c)).1 = some c0 := by
      rw [hc]
      exact parse_file_fst_capture hefc
    have hsl : slOf c d = some c0 := by
      rw [slOf, parse_file_fst_skip hdno, hsl1]
    refine ⟨hsl, ?_⟩
    rw [runOutputLines, hsl]
    show (stripTrailing (processLoop (commonOf c) (secsOf c d)
      (provPrefix (some c0)) 0).1).head? = _
    rw [processLoop_eq]
    have hc0ne : ¬ c0.isEmpty = true := by
      simpa [List.isEmpty_iff] using hasEF_ne_nil hefc
    have hprov : provPrefix (some c0) = [rstrip c0, []] := by
      simp only [provPrefix]
      rw [if_neg hc0ne]
    rw [hprov]
    rw [List.cons_append]
    rw [stripTrailing_cons (hasEF_rstrip_ne_nil hefc)]
    rfl

theorem c8_witness :
    slOf ("#h\nlib/a.so".toList) ("dev extracted from z\n#h\nlib/b.so".toList)
        = some ("dev extracted from z\n".toList)
      ∧ slOf ("x extracted from y\n#h\nlib/a.so".toList)
          ("#h\nlib/a.so\nlib/b.so".toList)
        = some ("x extracted from y\n".toList)
      ∧ (runOutputLines ("x extracted from y\n#h\nlib/a.so".toList)
          ("#h\nlib/a.so\nlib/b.so".toList)).head?
        = some (rstrip ("x extracted from y\n".toList)) := by
  have h2 := (c8_source_line_precedence
    ("x extracted from y\n#h\nlib/a.so".toList)
    ("#h\nlib/a.so\nlib/b.so".toList)).2
    ("x extracted from y\n".toList) ["#h\n".toList, "lib/a.so".toList]
    (by decide) (by decide)
    (fun l0 hl0 => by
      obtain rfl := Option.some.inj hl0
      decide)
  exact ⟨(c8_source_line_precedence ("#h\nlib/a.so".toList)
      ("dev extracted from z\n#h\nlib/b.so".toList)).1
      ("dev extracted from z\n".toList) ["#h\n".toList, "lib/b.so".toList]
      (by decide) (by decide),
    h2.1, h2.2⟩

/-- C3 (amended): whenever a source line is present, the output's first line
is its rstripped text; if at least one section survives filtering, the
second line is exactly one blank; but when every section is elided, the
output is just the provenance line — the blank after it is stripped as a
trailing blank, so the original claim fails in that case. -/
theorem c3_provenance_first (c d : List Char) (sl : Line)
    (h : slOf c d = some sl) :
    (sectionsOut (commonOf c) (secsOf c d) ≠ [] →
        (runOutputLines c d).take 2 = [rstrip sl, []])
      ∧ (sectionsOut (commonOf c) (secsOf c d) = [] →
        runOutputLines c d = [rstrip sl]) := by
  have hef : hasEF sl = true := by
    rcases slOf_spec c d with h0 | ⟨sl', hsl', hef', _⟩
    · rw [h0] at h
      cases h
    · rw [hsl'] at h
      obtain rfl := Option.some.inj h
      exact hef'
  have hslne : ¬ sl.isEmpty = true := by
    simpa [List.isEmpty_iff] using hasEF_ne_nil hef
  have hprov : provPrefix (some sl) = [rstrip sl, []] := by
    simp only [provPrefix]
    rw [if_neg hslne]
  have hout : runOutputLines c d
      = stripTrailing ([rstrip sl, []]
          ++ sectionsOut (commonOf c) (secsOf c d)) := by
    rw [runOutputLines, h]
    show stripTrailing (processLoop (commonOf c) (secsOf c d)
      (provPrefix (some sl)) 0).1 = _
    rw [processLoop_eq, hprov]
  constructor
  · intro hbody
    have hsv : survivors (commonOf c) (secsOf c d) ≠ [] := by
      intro hs
      rw [sectionsOut_eq_emit, hs] at hbody
      exact hbody rfl
    rcases emitSecs_decomp (survivors (commonOf c) (secsOf c d))
      (survivors_goodSec (secsOf_good c d)) hsv with ⟨b, a, hba, hane⟩
    rw [hout, sectionsOut_eq_emit, hba]
    have hgrp : ([rstrip sl, []] : List Line) ++ (b ++ [a, []])
        = (([rstrip sl, []] ++ b ++ [a]) ++ [[]]) := by
      simp
    rw [hgrp, stripTrailing_append_nil]
    have hgrp2 : ([rstrip sl, []] : List Line) ++ b ++ [a]
        = (([rstrip sl, []] ++ b) ++ [a]) := by
      simp
    rw [hgrp2, stripTrailing_concat_ne _ hane]
    simp [List.take]
  · intro hbody
    rw [hout, hbody, List.append_nil]
    have hgrp : ([rstrip sl, []] : List Line) = ([rstrip sl] ++ [[]]) := rfl
    rw [hgrp, stripTrailing_append_nil]
    exact stripTrailing_concat_ne ([] : List Line)
      (hasEF_rstrip_ne_nil hef)

theorem c3_witness :
    (runOutputLines ("#h\nlib/a.so".toList)
        ("x extracted from y\n#h\nlib/a.so\nlib/b.so".toList)).take 2
      = [rstrip ("x extracted from y\n".toList), []]
    ∧ runOutputLines ("#h\nlib/a.so".toList)
        ("x extracted from y\n#h\nlib/a.so".toList)
      = [rstrip ("x extracted from y\n".toList)] :=
  ⟨(c3_provenance_first ("#h\nlib/a.so".toList)
      ("x extracted from y\n#h\nlib/a.so\nlib/b.so".toList)
      ("x extracted from y\n".toList) (by decide)).1 (by decide),
   (c3_provenance_first ("#h\nlib/a.so".toList)
      ("x extracted from y\n#h\nlib/a.so".toList)
      ("x extracted from y\n".toList) (by decide)).2 (by decide)⟩

/-- C3 counterexample: source line present, every section elided — the
output is the provenance line alone, with no blank line after it, so the
first two output lines are not the provenance line followed by a blank. -/
theorem c3_counterexample :
    slOf ("#h\nlib/a.so".toList) ("x extracted from y\n#h\nlib/a.so".toList)
        = some ("x extracted from y\n".toList)
      ∧ (runOutputLines ("#h\nlib/a.so".toList)
          ("x extracted from y\n#h\nlib/a.so".toList)).take 2
        ≠ [rstrip ("x extracted from y\n".toList), []] :=
  ⟨by decide, by decide⟩

/-- C5 (amended): running the deduplicator a second time on the first run's
output, against the same common file, removes nothing and reproduces the
output — provided the first run captured a provenance line, or the first
line of its output does not contain "extracted from".  (Without that proviso
the second run captures a surviving header as provenance and drops it; see
the counterexample.) -/
theorem c5_idempotent (c d : List Char)
    (h : slOf c d ≠ none
        ∨ ∀ l, (runOutputLines c d).head? = some l → hasEF l = false) :
    run c (run c d).1 = ((run c d).1, 0) := by
  have hgoodsvs : ∀ t ∈ survivors (commonOf c) (secsOf c d), goodSec t :=
    survivors_goodSec (secsOf_good c d)
  have hfst : (run c d).1 = joinLines (runOutputLines c d) := rfl
  rw [hfst]
  suffices hsuf : runOutputLines c (joinLines (runOutputLines c d))
      = runOutputLines c d
      ∧ removedOf c (joinLines (runOutputLines c d)) = 0 by
    rw [run_eq c (joinLines (runOutputLines c d)), hsuf.1, hsuf.2]
  by_cases hout0 : runOutputLines c d = []
  · -- every buffer line was stripped: the output is the bare "\n"
    have hsl2 : slOf c d = none := by
      rcases slOf_spec c d with h0 | ⟨sl, hsl, hef, hnl⟩
      · exact h0
      · exfalso
        have hne : ¬ sl.isEmpty = true := by
          simpa [List.isEmpty_iff] using hasEF_ne_nil hef
        have hpp : provPrefix (some sl) = [rstrip sl, []] := by
          simp only [provPrefix]
          rw [if_neg hne]
        rw [runOutputLines_eq, hsl, hpp, List.cons_append,
          stripTrailing_cons (hasEF_rstrip_ne_nil hef)] at hout0
        cases hout0
    have hsl1 : (parse_file none (readlines c)).1 = none := slOf_none_first hsl2
    have hsv0 : survivors (commonOf c) (secsOf c d) = [] := by
      by_contra hsv
      rcases emitSecs_decomp _ hgoodsvs hsv with ⟨b, a, hba, hane⟩
      have hpnone : provPrefix none = [] := rfl
      rw [runOutputLines_eq, hsl2, hpnone, hba,
        stripTrailing_body [] b hane] at hout0
      simp at hout0
    have hrl : readlines ['\n'] = [['\n']] := by decide
    have hno : ∀ l0, ([['\n']] : List Line).head? = some l0 →
        hasEF l0 = false := by
      intro l0 hl0
      obtain rfl := Option.some.inj hl0
      decide
    have hsl2' : slOf c (joinLines (runOutputLines c d)) = none := by
      rw [hout0]
      show slOf c ['\n'] = none
      rw [slOf_def, hrl, parse_file_fst_skip hno, hsl1]
    have hsecs2 : secsOf c (joinLines (runOutputLines c d))
        = survivors (commonOf c) (secsOf c d) := by
      rw [hout0, hsv0]
      show secsOf c ['\n'] = []
      rw [secsOf_def, hrl, parse_file_snd_skip hno]
      exact parseLines_cons_blank []
    exact second_run_components c d none hsl2' hsecs2 (by rw [hsl2])
  · have hnl := runOutputLines_no_nl c d
    have hrdl : readlines (joinLines (runOutputLines c d))
        = (runOutputLines c d).map (fun l => l ++ ['\n']) :=
      readlines_joinLines _ hnl hout0
    rcases slOf_spec c d with hsl2 | ⟨sl, hsl2, hef, hslnl⟩
    · -- no provenance line anywhere: the hypothesis guards the first header
      have hsl1 : (parse_file none (readlines c)).1 = none :=
        slOf_none_first hsl2
      have hbody_ne : emitSecs (survivors (commonOf c) (secsOf c d)) ≠ [] := by
        intro h0
        apply hout0
        rw [runOutputLines_eq, hsl2, h0]
        rfl
      have hsv_ne : survivors (commonOf c) (secsOf c d) ≠ [] := by
        intro h0
        apply hbody_ne
        rw [h0]
        rfl
      rcases emitSecs_decomp _ hgoodsvs hsv_ne with ⟨b, a, hba, hane⟩
      have houtL : runOutputLines c d = b ++ [a] := by
        have hpnone : provPrefix none = [] := rfl
        rw [runOutputLines_eq, hsl2, hpnone, hba, stripTrailing_body [] b hane]
        rfl
      have hH : ∀ l, (runOutputLines c d).head? = some l → hasEF l = false := by
        rcases h with h | h
        · exact absurd hsl2 h
        · exact h
      obtain ⟨hd0, tl0, hcons⟩ := List.exists_cons_of_ne_nil hout0
      have hhdEF : hasEF hd0 = false := hH hd0 (by rw [hcons]; rfl)
      have hhdEF' : ∀ l0, ((runOutputLines c d).map
          (fun l => l ++ ['\n'])).head? = some l0 → hasEF l0 = false := by
        intro l0 hl0
        rw [hcons] at hl0
        obtain rfl := Option.some.inj hl0
        refine bool_eq_false (fun hcontra => ?_)
        rw [hasEF_of_append_nl hcontra] at hhdEF
        cases hhdEF
      have hsl2' : slOf c (joinLines (runOutputLines c d)) = none := by
        rw [slOf_def, hrdl, parse_file_fst_skip hhdEF', hsl1]
      have hsecs2 : secsOf c (joinLines (runOutputLines c d))
          = survivors (commonOf c) (secsOf c d) := by
        rw [secsOf_def c (joinLines (runOutputLines c d)), hrdl,
          parse_file_snd_skip hhdEF', houtL]
        exact parseLines_emit_dropLast _ hgoodsvs b a hba
      exact second_run_components c d none hsl2' hsecs2 (by rw [hsl2])
    · -- a provenance line is present: it is recaptured by the second parse
      have hne : ¬ sl.isEmpty = true := by
        simpa [List.isEmpty_iff] using hasEF_ne_nil hef
      have hpp1 : provPrefix (some sl) = [rstrip sl, []] := by
        simp only [provPrefix]
        rw [if_neg hne]
      have hne2 : ¬ (rstrip sl ++ ['\n']).isEmpty = true := by
        simp [List.isEmpty_iff]
      have hpp2 : provPrefix (some (rstrip sl ++ ['\n'])) = [rstrip sl, []] := by
        simp only [provPrefix]
        rw [if_neg hne2, rstrip_double_nl]
      have hefr : hasEF (rstrip sl ++ ['\n']) = true :=
        hasEF_append_nl (hasEF_rstrip hef)
      by_cases hbody : emitSecs (survivors (commonOf c) (secsOf c d)) = []
      · have hsv0 : survivors (commonOf c) (secsOf c d) = [] :=
          emitSecs_eq_nil hbody
        have houtL : runOutputLines c d = [rstrip sl] := by
          rw [runOutputLines_eq, hsl2, hpp1, hbody, List.append_nil]
          show stripTrailing ([rstrip sl] ++ [[]]) = [rstrip sl]
          rw [stripTrailing_append_nil]
          exact stripTrailing_concat_ne [] (hasEF_rstrip_ne_nil hef)
        have hmap : (runOutputLines c d).map (fun l => l ++ ['\n'])
            = [rstrip sl ++ ['\n']] := by
          rw [houtL]
          rfl
        have hsl2' : slOf c (joinLines (runOutputLines c d))
            = some (rstrip sl ++ ['\n']) := by
          rw [slOf_def, hrdl, hmap]
          exact parse_file_fst_capture hefr
        have hsecs2 : secsOf c (joinLines (runOutputLines c d))
            = survivors (commonOf c) (secsOf c d) := by
          rw [secsOf_def c (joinLines (runOutputLines c d)), hrdl, hmap, hsv0,
            parse_file_snd_capture hefr]
          rfl
        exact second_run_components c d (some (rstrip sl ++ ['\n']))
          hsl2' hsecs2 (by rw [hsl2, hpp2, hpp1])
      · have hsv_ne : survivors (commonOf c) (secsOf c d) ≠ [] := by
          intro h0
          apply hbody
          rw [h0]
          rfl
        rcases emitSecs_decomp _ hgoodsvs hsv_ne with ⟨b, a, hba, hane⟩
        have houtL : runOutputLines c d = [rstrip sl, []] ++ b ++ [a] := by
          rw [runOutputLines_eq, hsl2, hpp1, hba]
          exact stripTrailing_body [rstrip sl, []] b hane
        have hmap : (runOutputLines c d).map (fun l => l ++ ['\n'])
            = (rstrip sl ++ ['\n']) :: (['\n'] : Line)
                :: ((b ++ [a]).map (fun l => l ++ ['\n'])) := by
          rw [houtL]
          simp
        have hsl2' : slOf c (joinLines (runOutputLines c d))
            = some (rstrip sl ++ ['\n']) := by
          rw [slOf_def, hrdl, hmap]
          exact parse_file_fst_capture hefr
        have hsecs2 : secsOf c (joinLines (runOutputLines c d))
            = survivors (commonOf c) (secsOf c d) := by
          rw [secsOf_def c (joinLines (runOutputLines c d)), hrdl, hmap,
            parse_file_snd_capture hefr, parseLines_cons_blank]
          exact parseLines_emit_dropLast _ hgoodsvs b a hba
        exact second_run_components c d (some (rstrip sl ++ ['\n']))
          hsl2' hsecs2 (by rw [hsl2, hpp2, hpp1])

theorem c5_witness :
    (slOf ("#h\nlib/a.so".toList) ("#h\nlib/a.so\nlib/b.so".toList) ≠ none
        ∨ ∀ l, (runOutputLines ("#h\nlib/a.so".toList)
            ("#h\nlib/a.so\nlib/b.so".toList)).head? = some l →
          hasEF l = false)
      ∧ run ("#h\nlib/a.so".toList)
          (run ("#h\nlib/a.so".toList) ("#h\nlib/a.so\nlib/b.so".toList)).1
        = ((run ("#h\nlib/a.so".toList)
            ("#h\nlib/a.so\nlib/b.so".toList)).1, 0) :=
  ⟨Or.inr (fun l hl => by
      obtain rfl := Option.some.inj hl
      decide),
   c5_idempotent ("#h\nlib/a.so".toList) ("#h\nlib/a.so\nlib/b.so".toList)
     (Or.inr (fun l hl => by
       obtain rfl := Option.some.inj hl
       decide))⟩

/-- C5 counterexample: with an empty common file and a device file whose
first line is blank and whose header contains "extracted from", the first
run emits that header as the first output line; the second run captures it
as a provenance line and discards the now-orphaned content line, so the
second output differs from the first (though it still removes nothing). -/
theorem c5_counterexample :
    run ("".toList) ("\n#foo extracted from bar\nlib/x.so".toList)
        = ("#foo extracted from bar\nlib/x.so\n".toList, 0)
      ∧ run ("".toList)
          (run ("".toList) ("\n#foo extracted from bar\nlib/x.so".toList)).1
        = ("#foo extracted from bar\n".toList, 0)
      ∧ run ("".toList)
          (run ("".toList) ("\n#foo extracted from bar\nlib/x.so".toList)).1
        ≠ ((run ("".toList)
            ("\n#foo extracted from bar\nlib/x.so".toList)).1, 0) :=
  ⟨by decide, by decide, by decide⟩

theorem c10_witness :
    ((deduplicate (fun _ => none) "a" "b" false = none)
        ↔ ¬(is_file (fun _ => none) "a" = true
              ∧ is_file (fun _ => none) "b" = true))
      ∧ ((deduplicate (fun _ => none) "a" "b" false = none)
          ↔ (deduplicate (fun _ => (none : Option FNode)) "a" "b" false
              = none)) :=
  ⟨(c10_validation (fun _ => none) "a" "b" false).1,
   (c10_validation (fun _ => none) "a" "b" false).2 (fun _ => none)
     (fun _ => trivial)⟩

end Dedup
